import Mathlib

/-!
Verification of the vgo prototype's module core against its specification.

The development shallowly embeds the relevant parts of the source:

* `cmd/go/internal/vgo/load.go` — the MVS requirement oracle (`mvsReqs`),
  `Replacement`, `importPathInModule`, `loader.importDir`, `fetch`;
* `cmd/go/internal/modfetch/query.go` — `Query`;
* the `modfetch` go.sum ledger (`initGoSum`, `checkSum`, `checkGoMod`,
  `checkOneSum`, `WriteGoSum`);
* the `modcmd` vendor materializer (`runVendor`, `vendorPkg`,
  `copyTestdata`, `copyDir`).

The semantic-version comparison package `cmd/go/internal/semver` and the
pseudo-version helpers are not part of the provided sources; they are
modelled from the specification (Semantic Versioning 2.0.0 with a leading
`v`, prereleases ordering before the same base, numeric identifiers
comparing numerically and alphanumeric ones lexicographically, invalid
version strings comparing below every valid one and equal to each other).
Go's `int`-valued `semver.Compare` is rendered as an `Ordering`
(`-1`/`0`/`+1` become `.lt`/`.eq`/`.gt`), commit timestamps as naturals,
and effectful failure (`error` results, `base.Fatalf`, `panic`) as
explicit result constructors.
-/

namespace Vgo

/-! ### Ordering helpers -/

/-- Sequential composition of comparisons, as used when comparing
version components in order. -/
def ordThen (a b : Ordering) : Ordering :=
  match a with
  | .eq => b
  | o => o

/-- Three-way comparison of naturals. -/
def cmpNat (a b : Nat) : Ordering :=
  if a < b then .lt else if b < a then .gt else .eq

/-- Three-way comparison of characters, by code point. -/
def cmpChar (a b : Char) : Ordering :=
  cmpNat a.toNat b.toNat

/-- Lexicographic three-way comparison of character lists (Go's
byte-wise string comparison, restricted to the ASCII identifiers
appearing in versions). -/
def cmpCharList : List Char → List Char → Ordering
  | [], [] => .eq
  | [], _ :: _ => .lt
  | _ :: _, [] => .gt
  | a :: as, b :: bs => ordThen (cmpChar a b) (cmpCharList as bs)

theorem ordThen_eq_left (b : Ordering) : ordThen .eq b = b := rfl

theorem cmpNat_self (a : Nat) : cmpNat a a = .eq := by
  unfold cmpNat
  rw [if_neg (Nat.lt_irrefl a), if_neg (Nat.lt_irrefl a)]

theorem cmpNat_swap (a b : Nat) : cmpNat a b = (cmpNat b a).swap := by
  unfold cmpNat
  split_ifs <;> first | rfl | omega

theorem cmpChar_self (a : Char) : cmpChar a a = .eq :=
  cmpNat_self a.toNat

theorem cmpChar_swap (a b : Char) : cmpChar a b = (cmpChar b a).swap :=
  cmpNat_swap a.toNat b.toNat

theorem ordThen_swap (a b : Ordering) :
    (ordThen a b).swap = ordThen a.swap b.swap := by
  cases a <;> simp [ordThen, Ordering.swap]

theorem cmpCharList_self (l : List Char) : cmpCharList l l = .eq := by
  induction l with
  | nil => rfl
  | cons a as ih => simp [cmpCharList, cmpChar_self, ordThen, ih]

theorem cmpCharList_swap (l m : List Char) :
    cmpCharList l m = (cmpCharList m l).swap := by
  induction l generalizing m with
  | nil => cases m <;> rfl
  | cons a as ih =>
    cases m with
    | nil => rfl
    | cons b bs =>
      show ordThen (cmpChar a b) (cmpCharList as bs)
          = (ordThen (cmpChar b a) (cmpCharList bs as)).swap
      rw [ordThen_swap, ← cmpChar_swap, ih bs]

/-! ### Semantic versions

Modelled from the spec: the package `cmd/go/internal/semver` is not among
the provided sources.  Versions follow Semantic Versioning 2.0.0 with a
leading `v`; `canonical` pads a missing MINOR/PATCH with zeros; `compare`
orders prereleases before the same base, numeric identifiers numerically
and alphanumeric identifiers lexicographically; an invalid version string
(including the empty string) compares below every valid version and equal
to every other invalid one. -/

def isDigitCh (c : Char) : Bool :=
  '0' ≤ c && c ≤ '9'

def isAlphaNumHyph (c : Char) : Bool :=
  isDigitCh c || ('a' ≤ c && c ≤ 'z') || ('A' ≤ c && c ≤ 'Z') || c == '-'

def natOfDigits (ds : List Char) : Nat :=
  ds.foldl (fun n c => n * 10 + (c.toNat - 48)) 0

/-- Parse a leading run of decimal digits that has no superfluous leading
zero, returning its value and the remaining characters. -/
def parseNum (cs : List Char) : Option (Nat × List Char) :=
  let ds := cs.takeWhile isDigitCh
  let r := cs.dropWhile isDigitCh
  if ds.isEmpty then none
  else if ds.length > 1 && ds.headD '0' == '0' then none
  else some (natOfDigits ds, r)

/-- Split a character list on `.` separators. -/
def splitOnDot : List Char → List (List Char)
  | [] => [[]]
  | c :: cs =>
    let r := splitOnDot cs
    if c == '.' then [] :: r
    else
      match r with
      | h :: t => (c :: h) :: t
      | [] => [[c]]

/-- One prerelease identifier: numeric identifiers compare numerically and
before alphanumeric ones, alphanumeric ones lexicographically. -/
inductive PreId where
  | num (n : Nat)
  | alpha (s : List Char)
deriving DecidableEq, Repr

def classifyPre (id : List Char) : Option PreId :=
  if id.isEmpty then none
  else if !id.all isAlphaNumHyph then none
  else if id.all isDigitCh then
    if id.length > 1 && id.headD '0' == '0' then none
    else some (.num (natOfDigits id))
  else some (.alpha id)

def parsePreIds (cs : List Char) : Option (List PreId) :=
  (splitOnDot cs).mapM classifyPre

def validBuild (b : List Char) : Bool :=
  (splitOnDot b).all fun id => !id.isEmpty && id.all isAlphaNumHyph

/-- A parsed semantic version.  `preText`/`buildText` keep the original
prerelease and build text (with their `-`/`+` markers) so that the
canonical form and the prerelease extractor can be reproduced. -/
structure ParsedVer where
  major : Nat
  minor : Nat
  patch : Nat
  pre : List PreId
  preText : List Char
  buildText : List Char
deriving DecidableEq, Repr

def parseTail (maj mi pa : Nat) (r : List Char) : Option ParsedVer :=
  match r with
  | [] => some ⟨maj, mi, pa, [], [], []⟩
  | '-' :: t =>
    let p := t.takeWhile fun c => c != '+'
    let rest := t.dropWhile fun c => c != '+'
    match parsePreIds p with
    | none => none
    | some ids =>
      match rest with
      | [] => some ⟨maj, mi, pa, ids, '-' :: p, []⟩
      | '+' :: b =>
        if validBuild b then some ⟨maj, mi, pa, ids, '-' :: p, '+' :: b⟩ else none
      | _ :: _ => none
  | '+' :: b => if validBuild b then some ⟨maj, mi, pa, [], [], '+' :: b⟩ else none
  | _ => none

def parsePatchPart (maj mi : Nat) (cs : List Char) : Option ParsedVer :=
  match parseNum cs with
  | none => none
  | some (pa, r) => parseTail maj mi pa r

def parseMinorPart (maj : Nat) (cs : List Char) : Option ParsedVer :=
  match parseNum cs with
  | none => none
  | some (mi, r) =>
    match r with
    | [] => some ⟨maj, mi, 0, [], [], []⟩
    | '.' :: r2 => parsePatchPart maj mi r2
    | _ => none

def parseMajorPart (cs : List Char) : Option ParsedVer :=
  match parseNum cs with
  | none => none
  | some (maj, r) =>
    match r with
    | [] => some ⟨maj, 0, 0, [], [], []⟩
    | '.' :: r2 => parseMinorPart maj r2
    | _ => none

/-- Parse a semantic version string with its required leading `v`. -/
def parseSemVer (s : String) : Option ParsedVer :=
  match s.data with
  | 'v' :: rest => parseMajorPart rest
  | _ => none

def IsValid (v : String) : Bool :=
  (parseSemVer v).isSome

def natDigits (n : Nat) : List Char :=
  (Nat.toDigits 10 n)

/-- Canonical form: `vMAJOR.MINOR.PATCH` plus the prerelease text, build
metadata stripped; the empty string for an invalid input. -/
def Canonical (v : String) : String :=
  match parseSemVer v with
  | none => ""
  | some p =>
    String.mk ('v' :: natDigits p.major ++ '.' :: natDigits p.minor ++
      '.' :: natDigits p.patch ++ p.preText)

/-- Prerelease extractor: the `-...` suffix of a valid version, `""` when
there is none or the version is invalid. -/
def Prerelease (v : String) : String :=
  match parseSemVer v with
  | none => ""
  | some p => String.mk p.preText

def cmpPreId : PreId → PreId → Ordering
  | .num a, .num b => cmpNat a b
  | .num _, .alpha _ => .lt
  | .alpha _, .num _ => .gt
  | .alpha a, .alpha b => cmpCharList a b

def cmpPreIds : List PreId → List PreId → Ordering
  | [], [] => .eq
  | [], _ :: _ => .lt
  | _ :: _, [] => .gt
  | a :: as, b :: bs => ordThen (cmpPreId a b) (cmpPreIds as bs)

/-- Compare prerelease identifier lists: a release (empty list) is greater
than any prerelease of the same base. -/
def cmpPre (p q : List PreId) : Ordering :=
  match p, q with
  | [], [] => .eq
  | [], _ :: _ => .gt
  | _ :: _, [] => .lt
  | a :: as, b :: bs => ordThen (cmpPreId a b) (cmpPreIds as bs)

def cmpParsed (x y : ParsedVer) : Ordering :=
  ordThen (cmpNat x.major y.major)
    (ordThen (cmpNat x.minor y.minor)
      (ordThen (cmpNat x.patch y.patch) (cmpPre x.pre y.pre)))

/-- The comparison of version strings (`semver.Compare`, with the Go
`int` result rendered as an `Ordering`). -/
def cmpVer (a b : String) : Ordering :=
  match parseSemVer a, parseSemVer b with
  | none, none => .eq
  | none, some _ => .lt
  | some _, none => .gt
  | some x, some y => cmpParsed x y

/-- Timestamp encoded in a pseudo-version.  Modelled from the spec:
pseudo-versions have the shape `vMAJOR.(MINOR|0).0-YYYYMMDDHHMMSS-SHORTHASH`
and the wall-clock instant is abstracted to the natural number formed by
the 14 timestamp digits (this encoding is monotone in time, which is all
`Upgrade` relies on). -/
def pseudoVersionTime (v : String) : Option Nat :=
  match v.data with
  | 'v' :: rest =>
    match parseNum rest with
    | none => none
    | some (_, r1) =>
      match r1 with
      | '.' :: r2 =>
        match parseNum r2 with
        | none => none
        | some (_, r3) =>
          match r3 with
          | '.' :: '0' :: '-' :: r4 =>
            let ts := r4.takeWhile isDigitCh
            let r5 := r4.dropWhile isDigitCh
            if ts.length == 14 then
              match r5 with
              | '-' :: h =>
                if !h.isEmpty && h.all isAlphaNumHyph && !h.any (· == '-') then
                  some (natOfDigits ts)
                else none
              | _ => none
            else none
          | _ => none
      | _ => none
  | _ => none

theorem cmpPreId_self (a : PreId) : cmpPreId a a = .eq := by
  cases a with
  | num n => exact cmpNat_self n
  | alpha s => exact cmpCharList_self s

theorem cmpPreId_swap (a b : PreId) : cmpPreId a b = (cmpPreId b a).swap := by
  cases a with
  | num n =>
    cases b with
    | num m => exact cmpNat_swap n m
    | alpha s => rfl
  | alpha s =>
    cases b with
    | num m => rfl
    | alpha t => exact cmpCharList_swap s t

theorem cmpPreIds_self (l : List PreId) : cmpPreIds l l = .eq := by
  induction l with
  | nil => rfl
  | cons a as ih =>
    show ordThen (cmpPreId a a) (cmpPreIds as as) = .eq
    rw [cmpPreId_self, ordThen_eq_left, ih]

theorem cmpPreIds_swap (l m : List PreId) :
    cmpPreIds l m = (cmpPreIds m l).swap := by
  induction l generalizing m with
  | nil => cases m <;> rfl
  | cons a as ih =>
    cases m with
    | nil => rfl
    | cons b bs =>
      show ordThen (cmpPreId a b) (cmpPreIds as bs)
          = (ordThen (cmpPreId b a) (cmpPreIds bs as)).swap
      rw [ordThen_swap, ← cmpPreId_swap, ih bs]

theorem cmpPre_self (l : List PreId) : cmpPre l l = .eq := by
  cases l with
  | nil => rfl
  | cons a as =>
    show ordThen (cmpPreId a a) (cmpPreIds as as) = .eq
    rw [cmpPreId_self, ordThen_eq_left, cmpPreIds_self]

theorem cmpPre_swap (l m : List PreId) : cmpPre l m = (cmpPre m l).swap := by
  cases l with
  | nil => cases m <;> rfl
  | cons a as =>
    cases m with
    | nil => rfl
    | cons b bs =>
      show ordThen (cmpPreId a b) (cmpPreIds as bs)
          = (ordThen (cmpPreId b a) (cmpPreIds bs as)).swap
      rw [ordThen_swap, ← cmpPreId_swap, cmpPreIds_swap as bs]

theorem cmpParsed_self (x : ParsedVer) : cmpParsed x x = .eq := by
  unfold cmpParsed
  rw [cmpNat_self, ordThen_eq_left, cmpNat_self, ordThen_eq_left,
    cmpNat_self, ordThen_eq_left, cmpPre_self]

theorem cmpParsed_swap (x y : ParsedVer) :
    cmpParsed x y = (cmpParsed y x).swap := by
  unfold cmpParsed
  rw [ordThen_swap, ordThen_swap, ordThen_swap, ← cmpNat_swap, ← cmpNat_swap,
    ← cmpNat_swap, ← cmpPre_swap]

theorem cmpVer_self (v : String) : cmpVer v v = .eq := by
  unfold cmpVer
  cases parseSemVer v with
  | none => rfl
  | some x => exact cmpParsed_self x

theorem cmpVer_swap (a b : String) : cmpVer a b = (cmpVer b a).swap := by
  unfold cmpVer
  cases parseSemVer a <;> cases parseSemVer b <;>
    first
    | rfl
    | exact cmpParsed_swap _ _

/-! ### Module versions and result types -/

/-- A module version pair (`module.Version`). -/
structure ModVer where
  path : String
  version : String
deriving DecidableEq, Repr

/-- Result of a Go call returning `(value, error)`; `base.Fatalf` in leaf
helpers is likewise rendered as `error`. -/
inductive GoRes (α : Type) where
  | ok (a : α)
  | error (e : String)
deriving DecidableEq, Repr

/-- Result of an operation that can also panic: Go's `panic` is the
distinct `goPanic` constructor so the two failure modes stay separable. -/
inductive Outcome (α : Type) where
  | ok (a : α)
  | err (e : String)
  | goPanic (e : String)
deriving DecidableEq, Repr

def Outcome.isPanic {α : Type} : Outcome α → Bool
  | .goPanic _ => true
  | _ => false

def hasPrefixL : List Char → List Char → Bool
  | _, [] => true
  | [], _ :: _ => false
  | a :: as, b :: bs => a == b && hasPrefixL as bs

def substrInL (needle : List Char) : List Char → Bool
  | [] => needle.isEmpty
  | c :: cs => hasPrefixL (c :: cs) needle || substrInL needle cs

/-- Substring test (for matching documented error-message fragments). -/
def substrIn (needle hay : String) : Bool :=
  substrInL needle.data hay.data

/-- `strings.HasPrefix`, on the underlying character lists. -/
def strStartsWith (s pre : String) : Bool :=
  hasPrefixL s.data pre.data

/-- `s[:n]` on the underlying character list. -/
def strTake (s : String) (n : Nat) : String :=
  String.mk (s.data.take n)

/-- `s[n:]` on the underlying character list. -/
def strDrop (s : String) (n : Nat) : String :=
  String.mk (s.data.drop n)

theorem hasPrefixL_append (n r : List Char) : hasPrefixL (n ++ r) n = true := by
  induction n with
  | nil => rw [List.nil_append]; cases r <;> rfl
  | cons a as ih => simp [hasPrefixL, ih]

theorem substrInL_cons_of (n : List Char) (c : Char) (t : List Char)
    (h : substrInL n t = true) : substrInL n (c :: t) = true := by
  simp [substrInL, h]

theorem substrInL_append_self (n r : List Char) :
    substrInL n (n ++ r) = true := by
  cases n with
  | nil => cases r <;> simp [substrInL, hasPrefixL, List.isEmpty]
  | cons a as =>
    show substrInL (a :: as) ((a :: as) ++ r) = true
    rw [List.cons_append]
    simp only [substrInL, Bool.or_eq_true]
    exact Or.inl (hasPrefixL_append (a :: as) r)

theorem substrInL_of_middle (pre n post : List Char) :
    substrInL n (pre ++ n ++ post) = true := by
  induction pre with
  | nil => simpa using substrInL_append_self n post
  | cons c cs ih => exact substrInL_cons_of _ _ _ ih

/-! ### The requirement oracle `mvsReqs` (vgo/load.go)

`Env` collects the process-wide state the functions in `load.go` read:
the target module and parsed root manifest (requirements, excludes,
replacements), the optional already-computed build list, the `extra`
requirements passed to `newReqs`, and the I/O collaborators
(`repo.Versions`, the fetched-and-parsed remote `go.mod`, the parsed
`go.mod` of a local replacement directory).  `par.Cache` memoization is
semantically the identity and is dropped. -/

/-- A fetched `go.mod` after `modfile.Parse`: the declared module path (if
any `module` line is present) and the required modules. -/
structure ParsedGoMod where
  module : Option String
  require : List ModVer
deriving DecidableEq, Repr

structure Env where
  target : ModVer
  targetRequire : List ModVer
  extra : List ModVer
  excludeList : List ModVer
  replace : List (ModVer × ModVer)
  buildListState : Option (List ModVer)
  versions : String → GoRes (List String)
  goMod : String → String → GoRes ParsedGoMod
  localGoMod : String → GoRes ParsedGoMod

/-- The `excluded` map built by `InitMod` from the root manifest. -/
def Env.excluded (env : Env) (m : ModVer) : Bool :=
  env.excludeList.contains m

/-- Replacement lookup over the root manifest's replace directives: the
last directive whose `Old` equals `mod` exactly wins; a zero
`module.Version` (empty path) signals that no replacement applies. -/
def replaceLookup (rs : List (ModVer × ModVer)) (mod : ModVer) : ModVer :=
  (rs.foldl (fun acc r => if r.1 = mod then some r.2 else acc) none).getD ⟨"", ""⟩

def Replacement (env : Env) (mod : ModVer) : ModVer :=
  replaceLookup env.replace mod

/-- Go's `sort.Search` with the recursion depth made an explicit
structural argument.  Calling it with `fuel = j - i` is exact: the
interval shrinks by at least one per step, and whenever the fuel reaches
zero the invariant `fuel ≥ j - i` forces `i ≥ j`, which is the loop's own
exit condition, so the bounded and unbounded loops agree. -/
def sortSearchF (f : Nat → Bool) : Nat → Nat → Nat → Nat
  | 0, i, _ => i
  | fuel + 1, i, j =>
    if i < j then
      let m := (i + j) / 2
      if !f m then sortSearchF f fuel (m + 1) j else sortSearchF f fuel i m
    else i

/-- Go's `sort.Search`: binary search for the smallest index in `[0, n)`
at which `f` holds, assuming `f` is monotone; `n` if there is none. -/
def sortSearch (f : Nat → Bool) (i j : Nat) : Nat :=
  sortSearchF f (j - i) i j

/-- `mvsReqs.next`: the first version of `m.Path` after `m.Version` in the
repository's tagged version list, or version `"none"`. -/
def nextVer (env : Env) (m : ModVer) : GoRes ModVer :=
  match env.versions m.path with
  | .error e => .error e
  | .ok list =>
    let i := sortSearch (fun k => cmpVer (list.getD k "") m.version == .gt) 0 list.length
    if i < list.length then .ok ⟨m.path, list.getD i ""⟩
    else .ok ⟨m.path, "none"⟩

/-- The `for excluded[mv]` substitution loop inside `mvsReqs.Required`.
In the source the loop is bounded because every `next` step moves to a
strictly larger version of a finite tagged-version list; the embedding
makes that bound an explicit fuel (`Required` passes the length of the
version list plus one, which the source's invariant makes sufficient). -/
def excludeLoop (env : Env) (reqMod : ModVer) : Nat → ModVer → GoRes ModVer
  | 0, _ => .error "internal: exclusion loop out of fuel"
  | fuel + 1, mv =>
    if env.excluded mv then
      match nextVer env mv with
      | .error e => .error e
      | .ok mv1 =>
        if mv1.version = "none" then
          .error (reqMod.path ++ "(" ++ reqMod.version ++ ") depends on excluded " ++
            mv.path ++ "(" ++ mv.version ++ ") with no newer version available")
        else excludeLoop env reqMod fuel mv1
    else .ok mv

def excludeFuel (env : Env) (mv : ModVer) : Nat :=
  match env.versions mv.path with
  | .ok list => list.length + 1
  | _ => 1

def applyExclusions (env : Env) (reqMod : ModVer) : List ModVer → GoRes (List ModVer)
  | [] => .ok []
  | mv :: rest =>
    match excludeLoop env reqMod (excludeFuel env mv) mv with
    | .error e => .error e
    | .ok mv1 =>
      match applyExclusions env reqMod rest with
      | .error e => .error e
      | .ok rest1 => .ok (mv1 :: rest1)

/-- `mvsReqs.required`: the raw direct requirements of `mod`, before
exclusion processing. -/
def required (env : Env) (mod : ModVer) : Outcome (List ModVer) :=
  if mod = env.target then
    match env.buildListState with
    | some bl => .ok bl.tail
    | none => .ok (env.targetRequire ++ env.extra)
  else
    let origPath := mod.path
    let repl := Replacement env mod
    if repl.path ≠ "" ∧ repl.version = "" then
      match env.localGoMod repl.path with
      | .error e => .err e
      | .ok f => .ok f.require
    else
      let mod := if repl.path ≠ "" then repl else mod
      if mod.version = "none" then .ok []
      else if !IsValid mod.version then
        .goPanic ("invalid semantic version \"" ++ mod.version ++ "\" for " ++ mod.path)
      else
        match env.goMod mod.path mod.version with
        | .error e => .err e
        | .ok f =>
          match f.module with
          | none => .err (mod.path ++ "@" ++ mod.version ++ " go.mod: missing module line")
          | some mpath =>
            if mpath ≠ origPath ∧ mpath ≠ mod.path then
              .err ("downloaded \"" ++ mod.path ++ "\" and got module \"" ++ mpath ++ "\"")
            else .ok f.require

/-- `mvsReqs.Required`: the direct requirements with the root manifest's
exclusions applied by substituting the next greater tagged version. -/
def Required (env : Env) (mod : ModVer) : Outcome (List ModVer) :=
  match required env mod with
  | .err e => .err e
  | .goPanic e => .goPanic e
  | .ok list =>
    match applyExclusions env mod list with
    | .error e => .err e
    | .ok list1 => .ok list1

/-- `mvsReqs.Max` on version strings (`""` is the target's version and
wins against everything). -/
def MaxVer (v1 v2 : String) : String :=
  if v1 ≠ "" && cmpVer v1 v2 == .lt then v2 else v1

/-! ### Version query (modfetch/query.go)

A `Repo` is one module's repository as seen through the adapter
interface: the tagged version list (`Versions("")`, already sorted and
with pseudo-versions excluded per the interface contract), `Stat`,
`Latest`.  `QueryEnv` adds `modfetch.Lookup` and the on-disk `.info`
fast path used by `modfetch.Stat` for canonical versions (`none` means
the cached stat fails and `Query` falls through to the repository). -/

/-- Revision metadata (`modfetch.RevInfo`), with the commit time
abstracted to a natural-number instant. -/
structure RevInfo where
  version : String
  name : String
  short : String
  time : Nat
deriving DecidableEq, Repr

structure Repo where
  modulePath : String
  versions : GoRes (List String)
  stat : String → GoRes RevInfo
  latest : GoRes RevInfo

structure QueryEnv where
  lookup : String → GoRes Repo
  statCached : String → String → Option RevInfo

/-- The descending scans of `Query` (`for i := len(versions) - 1; i >= 0; i--`):
the last element of the list satisfying `p`. -/
def findFromEnd (p : String → Bool) : List String → Option String
  | [] => none
  | a :: as =>
    match findFromEnd p as with
    | some r => some r
    | none => if p a then some a else none

/-- `modfetch.Query(path, vers, allowed)`.  The `allowed = nil` default is
the caller passing the constantly-true predicate. -/
def Query (env : QueryEnv) (path vers : String) (allowed : ModVer → Bool) :
    GoRes RevInfo :=
  if IsValid vers then
    let vers := Canonical vers
    if !allowed ⟨path, vers⟩ then
      .error (path ++ "@" ++ vers ++ " excluded")
    else
      match env.statCached path vers with
      | some info => .ok info
      | none =>
        match env.lookup path with
        | .error e => .error e
        | .ok repo => repo.stat vers
  else
    match env.lookup path with
    | .error e => .error e
    | .ok repo =>
      if strStartsWith vers ">" || strStartsWith vers "<" || vers == "latest" then
        let op := if vers == "latest" then "" else strTake vers 1
        let vers1 := if vers == "latest" then vers else strDrop vers 1
        if vers != "latest" && !IsValid vers1 then
          .error ("invalid semantic version in range " ++ vers)
        else
          match repo.versions with
          | .error e => .error e
          | .ok versions =>
            if versions.isEmpty && vers1 == "latest" then repo.latest
            else
              let hit :=
                if vers1 == "latest" then
                  match findFromEnd
                      (fun v => Prerelease v == "" && allowed ⟨path, v⟩) versions with
                  | some v => some v
                  | none =>
                    findFromEnd
                      (fun v => Prerelease v != "" && allowed ⟨path, v⟩) versions
                else if op == "<" then
                  findFromEnd
                    (fun v => cmpVer v vers1 == .lt && allowed ⟨path, v⟩) versions
                else
                  versions.find?
                    (fun v => cmpVer v vers1 == .gt && allowed ⟨path, v⟩)
              match hit with
              | some v => repo.stat v
              | none => .error ("no matching versions for " ++ op ++ vers1)
      else repo.stat vers

/-- `mvsReqs.Upgrade`: the desired upgrade for `m`, via `Query "latest"`,
keeping `m` when the answer is semver-below it or when `m` is a
pseudo-version chronologically after the latest tagged version. -/
def Upgrade (env : QueryEnv) (allowed : ModVer → Bool) (m : ModVer) :
    GoRes ModVer :=
  match Query env m.path "latest" allowed with
  | .error e => .error e
  | .ok info =>
    if cmpVer info.version m.version == .lt then .ok m
    else
      match pseudoVersionTime m.version with
      | some mTime => if info.time < mTime then .ok m else .ok ⟨m.path, info.version⟩
      | none => .ok ⟨m.path, info.version⟩

/-! ### The loader (vgo/load.go): import-to-module mapping -/

/-- `importPathInModule(path, mpath)`: `mpath == path || len(path) >
len(mpath) && path[len(mpath)] == '/' && path[:len(mpath)] == mpath`,
with the byte index read on the underlying character list. -/
def importPathInModule (path mpath : String) : Bool :=
  mpath == path ||
    (decide (path.length > mpath.length) &&
      path.data.getD mpath.length ' ' == '/' &&
      path.data.take mpath.length == mpath.data)

/-- `search.IsStandardImportPath` is not among the provided sources.
Modelled from the spec: an import is standard when its first path
component lacks a dot. -/
def isStandardImportPath (path : String) : Bool :=
  !(path.data.takeWhile (fun c => c != '/')).contains '.'

/-- `filepath.Join` restricted to the slash-separated paths the loader
builds. -/
def joinPath (a b : String) : String :=
  a ++ "/" ++ b

/-- The state read by `loader.importDir` and `fetch`: the target, module
root, replacement table, the build list, `-getmode`, the `GOROOT` tree
(`gorootSrcHas dir` models `os.Stat(GOROOT/src/dir)` succeeding) and
`modfetch.Download`. -/
structure LoadEnv where
  target : ModVer
  modRoot : String
  goroot : String
  gorootSrcHas : String → Bool
  getmode : String
  buildList : List ModVer
  replace : List (ModVer × ModVer)
  download : ModVer → GoRes String

/-- `fetch(mod)` from vgo/load.go: apply the root replacement, serving a
directory replacement from disk, then download. -/
def fetchMod (env : LoadEnv) (mod : ModVer) : GoRes String :=
  let r := replaceLookup env.replace mod
  if r.path ≠ "" then
    if r.version = "" then
      .ok (if strStartsWith r.path "/" then r.path else joinPath env.modRoot r.path)
    else env.download r
  else env.download mod

/-- Result of `loader.importDir`: a directory, a reported error
(`base.Errorf` followed by `return ""`), or fall-through to the missing
list. -/
inductive DirResult where
  | dir (d : String)
  | errored (msg : String)
  | missing
deriving DecidableEq, Repr

/-- The build-list scan inside `importDir`: Go's `dir1`/`mod1` pair starts
empty and the second module containing the path reports "found in both". -/
def importDirScan (env : LoadEnv) (stackText path : String) :
    List ModVer → Option (String × ModVer) → DirResult
  | [], none => .missing
  | [], some (dir1, _) => .dir dir1
  | mod :: rest, acc =>
    if importPathInModule path mod.path then
      match fetchMod env mod with
      | .error e => .errored ("vgo: " ++ stackText ++ ": " ++ e)
      | .ok dir0 =>
        let dir :=
          if path.length > mod.path.length then
            joinPath dir0 (strDrop path (mod.path.length + 1))
          else dir0
        match acc with
        | some (_, mod1) =>
          .errored ("vgo: " ++ stackText ++ ": found in both " ++
            mod1.path ++ " " ++ mod1.version ++ " and " ++ mod.path ++ " " ++ mod.version)
        | none => importDirScan env stackText path rest (some (dir, mod))
    else importDirScan env stackText path rest acc

/-- `loader.importDir(path)` (the `pkgmod` bookkeeping is elided; the
returned directory and the reported errors are kept). -/
def importDir (env : LoadEnv) (stackText path : String) : DirResult :=
  if importPathInModule path env.target.path then
    .dir (if path.length > env.target.path.length then
      joinPath env.modRoot (strDrop path (env.target.path.length + 1))
    else env.modRoot)
  else if isStandardImportPath path &&
      (strStartsWith path "golang_org/" || env.gorootSrcHas path) then
    if strStartsWith path "golang_org/" then
      .dir (joinPath (joinPath env.goroot "src/vendor") path)
    else .dir (joinPath (joinPath env.goroot "src") path)
  else if env.getmode == "vendor" then
    .dir (joinPath (joinPath env.modRoot "vendor") path)
  else importDirScan env stackText path env.buildList none

/-! ### The checksum ledger (modfetch go.sum component)

The ledger state carries the configured `GoSumFile` name, the parsed
content of the on-disk `go.sum` (`none` = the file does not exist) and of
a sibling `go.modverify`, the in-memory map (`none` = not yet
initialized) and the `useGoSum` flag.  `SumEnv` supplies the `.ziphash`
cache files and the `Hash1` manifest hash as oracles. -/

structure GoSumLine where
  path : String
  version : String
  hash : String
deriving DecidableEq, Repr

structure SumState where
  goSumFileName : String
  goSumFileData : Option (List GoSumLine)
  modverifyData : Option (List GoSumLine)
  goSum : Option (List (ModVer × List String))
  useGoSum : Bool
deriving DecidableEq, Repr

structure SumEnv where
  ziphash : ModVer → Option String
  hash1 : String → String

def sumGet (m : List (ModVer × List String)) (k : ModVer) : List String :=
  ((m.find? fun e => e.1 = k).map fun e => e.2).getD []

def sumPut (m : List (ModVer × List String)) (k : ModVer) (hs : List String) :
    List (ModVer × List String) :=
  if m.any fun e => e.1 = k then
    m.map fun e => if e.1 = k then (k, hs) else e
  else m ++ [(k, hs)]

/-- `goSum[mod] = append(goSum[mod], h)`. -/
def sumAppend (m : List (ModVer × List String)) (k : ModVer) (h : String) :
    List (ModVer × List String) :=
  sumPut m k (sumGet m k ++ [h])

/-- `readGoSum`: fold the parsed lines into the map. -/
def readGoSumLines (m : List (ModVer × List String)) (lines : List GoSumLine) :
    List (ModVer × List String) :=
  lines.foldl (fun m l => sumAppend m ⟨l.path, l.version⟩ l.hash) m

/-- `initGoSum`: a no-op once initialized or when no `go.sum` path is
configured; otherwise the map starts empty, and only an existing `go.sum`
file switches `useGoSum` on and is merged (followed by any
`go.modverify`). -/
def initGoSum (s : SumState) : SumState :=
  if s.goSum.isSome || s.goSumFileName = "" then s
  else
    match s.goSumFileData with
    | none => { s with goSum := some [] }
    | some lines =>
      let m := readGoSumLines [] lines
      let m :=
        match s.modverifyData with
        | none => m
        | some mlines => readGoSumLines m mlines
      { s with goSum := some m, useGoSum := true }

/-- The scan of `goSum[mod]` inside `checkOneSum`: `some true` when the
hash is already recorded, `some false` when an `h1:` entry disagrees
before the hash is found, `none` when the scan falls off the end. -/
def scanHashes (h : String) : List String → Option Bool
  | [] => none
  | vh :: rest =>
    if h == vh then some true
    else if strStartsWith vh "h1:" then some false
    else scanHashes h rest

/-- `checkOneSum(mod, h)`: with the ledger disabled this returns without
touching the map; enabled, it verifies against the recorded hashes
(`base.Fatalf` on mismatch becomes `err`) and otherwise records `h`. -/
def checkOneSum (s : SumState) (mod : ModVer) (h : String) : GoRes SumState :=
  let s := initGoSum s
  if !s.useGoSum then .ok s
  else
    match s.goSum with
    | none => .ok s
    | some m =>
      match scanHashes h (sumGet m mod) with
      | some true => .ok s
      | some false =>
        .error ("vgo: verifying " ++ mod.path ++ "@" ++ mod.version ++ ": checksum mismatch")
      | none => .ok { s with goSum := some (sumAppend m mod h) }

def trimSpaceStr (s : String) : String :=
  String.mk (((s.data.dropWhile Char.isWhitespace).reverse.dropWhile
    Char.isWhitespace).reverse)

/-- `checkSum(mod)`: skipped entirely when disabled; otherwise reads the
`.ziphash` cache file and defers to `checkOneSum`. -/
def checkSum (env : SumEnv) (s : SumState) (mod : ModVer) : GoRes SumState :=
  let s := initGoSum s
  if !s.useGoSum then .ok s
  else
    match env.ziphash mod with
    | none => .error ("vgo: verifying " ++ mod.path ++ "@" ++ mod.version ++ ": no ziphash")
    | some data =>
      let h := trimSpaceStr data
      if !(strStartsWith h "h1:") then
        .error ("vgo: verifying " ++ mod.path ++ "@" ++ mod.version ++
          ": unexpected ziphash: " ++ h)
      else checkOneSum s mod h

/-- `checkGoMod(path, version, data)`: skipped entirely when disabled;
otherwise hashes the manifest bytes and defers to `checkOneSum` under the
`<version>/go.mod` key. -/
def checkGoMod (env : SumEnv) (s : SumState) (path version data : String) :
    GoRes SumState :=
  let s := initGoSum s
  if !s.useGoSum then .ok s
  else checkOneSum s ⟨path, version ++ "/go.mod"⟩ (env.hash1 data)

def insertBy {α : Type} (le : α → α → Bool) (a : α) : List α → List α
  | [] => [a]
  | b :: bs => if le a b then a :: b :: bs else b :: insertBy le a bs

def sortByLe {α : Type} (le : α → α → Bool) : List α → List α
  | [] => []
  | a :: as => insertBy le a (sortByLe le as)

def strLe (a b : String) : Bool :=
  !(cmpCharList a.data b.data == .gt)

/-- `module.Sort` order: by path, then by version. -/
def modVerLe (a b : ModVer) : Bool :=
  !(ordThen (cmpCharList a.path.data b.path.data)
      (cmpCharList a.version.data b.version.data) == .gt)

/-- `WriteGoSum`: `none` when the ledger is disabled (nothing is
written); otherwise the sorted lines that would be written.  The
write-skip when the bytes equal the existing file and the deletion of
`go.modverify` do not change the produced content and are elided. -/
def writeGoSum (s : SumState) : Option (List GoSumLine) :=
  if !s.useGoSum then none
  else
    match s.goSum with
    | none => none
    | some m =>
      some ((sortByLe modVerLe (m.map fun e => e.1)).flatMap fun k =>
        (sortByLe strLe (sumGet m k)).map fun h => ⟨k.path, k.version, h⟩)

/-! ### The vendor materializer (modcmd `runVendor`)

The filesystem is a finite tree of directories; a directory lists its
regular files and subdirectories.  Paths are slash-split segment lists,
and the copier reports the destination paths of the files it copies. -/

inductive FsDir where
  | mk (files : List String) (subdirs : List (String × FsDir))

def splitSlash (s : String) : List (List Char) :=
  (s.data.splitOn '/')

def segsOf (s : String) : List String :=
  (splitSlash s).map String.mk

/-- Resolve a segment path inside a directory tree. -/
def lookupDir (d : FsDir) : List String → Option FsDir
  | [] => some d
  | seg :: rest =>
    match d with
    | .mk _ subs =>
      match subs.find? fun e => e.1 = seg with
      | some e => lookupDir e.2 rest
      | none => none

mutual
/-- Model of `copyDir(dst, src, recursive)`: copy every regular file of
`src` into `dst`; recurse into a subdirectory when `recursive` is set or
it is named `testdata`.  Returns the destination paths of the copied
files. -/
def copyDir (dst : List String) (recursive : Bool) : FsDir → List (List String)
  | .mk files subs =>
    files.map (fun f => dst ++ [f]) ++ copyDirSubs dst recursive subs

def copyDirSubs (dst : List String) (recursive : Bool) :
    List (String × FsDir) → List (List String)
  | [] => []
  | (name, sub) :: rest =>
    (if recursive || name == "testdata" then copyDir (dst ++ [name]) true sub
     else []) ++ copyDirSubs dst recursive rest
end

/-- `copyTestdata(modPath, pkg, dst, src)`: walk from the package up to
the module root, copying each `testdata` directory not yet visited.  The
Go loop steps with `filepath.Dir` and stops at `modPath == pkg`; the
recursion is on an explicit fuel which `vendorPkg` sets to the number of
path segments plus one, enough for every walk that starts below the
module root (the only walks the source performs). -/
def copyTestdata (world : FsDir) (modPath : List String) :
    Nat → List String → List String → List String → List (List String) →
    List (List String) × List (List String)
  | 0, _, _, _, copied => ([], copied)
  | fuel + 1, pkg, dst, src, copied =>
    if copied.contains dst then ([], copied)
    else
      let copied := dst :: copied
      let here :=
        match lookupDir world (src ++ ["testdata"]) with
        | some td => copyDir (dst ++ ["testdata"]) true td
        | none => []
      if pkg = modPath ∨ pkg = [] then (here, copied)
      else
        let (rest, copied) :=
          copyTestdata world modPath fuel pkg.dropLast dst.dropLast src.dropLast copied
        (here ++ rest, copied)

structure VendorEnv where
  world : FsDir
  pkgs : List String
  importmap : String → String
  pkgdir : String → Option (List String)
  pkgmod : String → ModVer
  target : ModVer
  buildList : List ModVer
  replace : List (ModVer × ModVer)

/-- `vendorPkg(vdir, pkg)`: copy the package directory (non-recursively,
which still includes an immediate `testdata`), then the `testdata`
directories up the chain when the package belongs to a module. -/
def vendorPkg (env : VendorEnv) (pkg : String) (copied : List (List String)) :
    GoRes (List (List String) × List (List String)) :=
  let realPath := env.importmap pkg
  let dst := "vendor" :: segsOf pkg
  match env.pkgdir realPath with
  | none => .error ("internal error: no pkg for " ++ pkg ++ " -> " ++ realPath)
  | some src =>
    match lookupDir env.world src with
    | none => .error ("vgo vendor: reading " ++ realPath)
    | some srcDir =>
      let copies := copyDir dst false srcDir
      let m := env.pkgmod realPath
      if m.path ≠ "" then
        let (tds, copied) :=
          copyTestdata env.world (segsOf m.path) (segsOf realPath).length.succ
            (segsOf realPath) dst src copied
        .ok (copies ++ tds, copied)
      else .ok (copies, copied)

def vendorPkgs (env : VendorEnv) :
    List String → List (List String) →
    GoRes (List (List String) × List (List String))
  | [], copied => .ok ([], copied)
  | pkg :: rest, copied =>
    match vendorPkg env pkg copied with
    | .error e => .error e
    | .ok (cs, copied) =>
      match vendorPkgs env rest copied with
      | .error e => .error e
      | .ok (cs2, copied) => .ok (cs ++ cs2, copied)

/-- The grouping `modpkgs` of `runVendor` (packages of the target module
are skipped). -/
def modPkgsOf (env : VendorEnv) (m : ModVer) : List String :=
  if m = env.target then []
  else env.pkgs.filter fun pkg => env.pkgmod pkg = m

/-- The `# module version [=> replacement]` header line of the vendor
listing. -/
def vendorHeaderLine (env : VendorEnv) (m : ModVer) : String :=
  let r := replaceLookup env.replace m
  let repl :=
    if r.path ≠ "" then
      " => " ++ r.path ++ (if r.version ≠ "" then " " ++ r.version else "")
    else ""
  "# " ++ m.path ++ " " ++ m.version ++ repl

structure VendorOut where
  copies : List (List String)
  listing : Option (String × List String)
deriving DecidableEq, Repr

def runVendorMods (env : VendorEnv) :
    List ModVer → List (List String) →
    GoRes (List String × List (List String) × List (List String))
  | [], copied => .ok ([], [], copied)
  | m :: rest, copied =>
    let ps := modPkgsOf env m
    if ps.isEmpty then runVendorMods env rest copied
    else
      match vendorPkgs env ps copied with
      | .error e => .error e
      | .ok (cs, copied) =>
        match runVendorMods env rest copied with
        | .error e => .error e
        | .ok (lines, cs2, copied) =>
          .ok ((vendorHeaderLine env m :: ps) ++ lines, cs ++ cs2, copied)

/-- `runVendor`: walk the build list past the target, emit the listing
lines and copy each vendored package; when at least one line was
produced, the listing is written to `vendor/vgo.list`. -/
def runVendor (env : VendorEnv) : GoRes VendorOut :=
  match runVendorMods env env.buildList.tail [] with
  | .error e => .error e
  | .ok (lines, copies, _) =>
    if lines.isEmpty then .ok ⟨copies, none⟩
    else .ok ⟨copies, some ("vendor/vgo.list", lines)⟩

/-! ### Concrete environments used by the theorems -/

/-- The constantly-true `allowed` predicate (an empty exclude set). -/
def allowAll : ModVer → Bool := fun _ => true

/-- The repository of §8 scenario 6: published versions
`[v1.5.0, v1.5.1, v1.5.2, v1.5.3-pre1]`. -/
def repoQ : Repo :=
  { modulePath := "swtch.com/testmod"
    versions := .ok ["v1.5.0", "v1.5.1", "v1.5.2", "v1.5.3-pre1"]
    stat := fun v => .ok ⟨v, "rev-" ++ v, "", 0⟩
    latest := .ok ⟨"v0.0.0-20180101000000-000000000000", "tip", "", 42⟩ }

def qenv : QueryEnv :=
  { lookup := fun p => if p = "swtch.com/testmod" then .ok repoQ else .error "unknown module"
    statCached := fun _ _ => none }

/-- Root manifest requiring `lib v1.6.1` and excluding `lib v1.6.1`, with
`v1.6.2` published after it. -/
def envC1 : Env :=
  { target := ⟨"x", ""⟩
    targetRequire := [⟨"lib", "v1.6.1"⟩]
    extra := []
    excludeList := [⟨"lib", "v1.6.1"⟩]
    replace := []
    buildListState := none
    versions := fun p => if p = "lib" then .ok ["v1.6.1", "v1.6.2"] else .error "no such module"
    goMod := fun _ _ => .error "network disabled"
    localGoMod := fun _ => .error "no local module" }

/-- The same manifest when `v1.6.1` is the latest published version. -/
def envC1b : Env :=
  { envC1 with
    versions := fun p => if p = "lib" then .ok ["v1.6.0", "v1.6.1"] else .error "no such module" }

/-- A root manifest with the version-less replacement
`lib => ../z` (oldVersion empty). -/
def envRepl : Env :=
  { envC1 with
    targetRequire := [], excludeList := []
    replace := [(⟨"lib", ""⟩, ⟨"../z", ""⟩)] }

/-! ### C2 -/

/-- C2, counterexample: over the tagged versions
`[v1.5.0, v1.5.1, v1.5.2, v1.5.3-pre1]` with everything allowed, the
query `<v1.5.4` resolves to `v1.5.3-pre1` — the largest version strictly
below the bound — and not to `v1.5.2` as the claim's second example
asserts. -/
theorem c2_range_counterexample :
    Query qenv "swtch.com/testmod" "<v1.5.4" allowAll =
      .ok ⟨"v1.5.3-pre1", "rev-v1.5.3-pre1", "", 0⟩ ∧
    "v1.5.3-pre1" ≠ "v1.5.2" := by
  constructor
  · decide
  · decide

/-- C2, amended: `>v1.5.2` resolves to `v1.5.3-pre1`, and `<v1.5.4` also
resolves to `v1.5.3-pre1`: both range queries include prereleases, and
`<vX.Y.Z` picks the largest tagged version strictly below the bound
(which here is the prerelease, not `v1.5.2`). -/
theorem c2_range_queries :
    Query qenv "swtch.com/testmod" ">v1.5.2" allowAll =
      .ok ⟨"v1.5.3-pre1", "rev-v1.5.3-pre1", "", 0⟩ ∧
    Query qenv "swtch.com/testmod" "<v1.5.4" allowAll =
      .ok ⟨"v1.5.3-pre1", "rev-v1.5.3-pre1", "", 0⟩ ∧
    Query qenv "swtch.com/testmod" "<v1.5.3-pre1" allowAll =
      .ok ⟨"v1.5.2", "rev-v1.5.2", "", 0⟩ := by
  refine ⟨by decide, by decide, by decide⟩

/-! ### C4 -/

/-- C4, counterexample: `Max` is not commutative on every pair of version
strings: with the empty string (the target module's version) on the
left it returns the empty string, with it on the right it returns the
other version. -/
theorem c4_max_counterexample :
    MaxVer "" "v1.0.0" = "" ∧ MaxVer "v1.0.0" "" = "v1.0.0" ∧
    MaxVer "" "v1.0.0" ≠ MaxVer "v1.0.0" "" := by
  refine ⟨by decide, by decide, by decide⟩

/-- C4, amended: for nonempty version strings `Max` is commutative up to
semver equivalence (`Compare` of the two results is `0`), and it is
literally commutative whenever the two versions are not
`Compare`-equal; with the empty string as first argument it returns the
empty string, which acts as the maximal element for the target module.
(`Compare`-equal but textually distinct versions — build metadata or
non-canonical forms — and the empty string are the two sources of
non-commutativity.) -/
theorem maxVer_of_lt (v1 v2 : String) (h1 : v1 ≠ "") (hlt : cmpVer v1 v2 = .lt) :
    MaxVer v1 v2 = v2 := by
  unfold MaxVer
  rw [if_pos]
  have hb : (cmpVer v1 v2 == Ordering.lt) = true := by rw [hlt]; rfl
  rw [hb, Bool.and_true]
  exact decide_eq_true h1

theorem maxVer_of_not_lt (v1 v2 : String) (h : cmpVer v1 v2 ≠ .lt) :
    MaxVer v1 v2 = v1 := by
  unfold MaxVer
  rw [if_neg]
  intro hcond
  rw [Bool.and_eq_true] at hcond
  have hb := hcond.2
  cases hcv : cmpVer v1 v2 with
  | lt => exact h hcv
  | eq => rw [hcv] at hb; exact absurd hb (by decide)
  | gt => rw [hcv] at hb; exact absurd hb (by decide)

theorem c4_max_commutes (v1 v2 : String) (h1 : v1 ≠ "") (h2 : v2 ≠ "") :
    cmpVer (MaxVer v1 v2) (MaxVer v2 v1) = .eq ∧
    (cmpVer v1 v2 ≠ .eq → MaxVer v1 v2 = MaxVer v2 v1) := by
  have hswap : cmpVer v2 v1 = (cmpVer v1 v2).swap := cmpVer_swap v2 v1
  cases hc : cmpVer v1 v2 with
  | lt =>
    rw [hc] at hswap
    have e1 : MaxVer v1 v2 = v2 := maxVer_of_lt v1 v2 h1 hc
    have e2 : MaxVer v2 v1 = v2 := maxVer_of_not_lt v2 v1 (by rw [hswap]; decide)
    rw [e1, e2]
    exact ⟨cmpVer_self v2, fun _ => rfl⟩
  | eq =>
    rw [hc] at hswap
    have e1 : MaxVer v1 v2 = v1 := maxVer_of_not_lt v1 v2 (by rw [hc]; decide)
    have e2 : MaxVer v2 v1 = v2 := maxVer_of_not_lt v2 v1 (by rw [hswap]; decide)
    rw [e1, e2]
    exact ⟨hc, fun hne => absurd rfl hne⟩
  | gt =>
    rw [hc] at hswap
    have e1 : MaxVer v1 v2 = v1 := maxVer_of_not_lt v1 v2 (by rw [hc]; decide)
    have e2 : MaxVer v2 v1 = v1 := maxVer_of_lt v2 v1 h2 hswap
    rw [e1, e2]
    exact ⟨cmpVer_self v1, fun _ => rfl⟩

/-- C4, witness for the amended theorem at `v1.0.0`, `v2.0.0`. -/
theorem c4_max_commutes_witness :
    cmpVer (MaxVer "v1.0.0" "v2.0.0") (MaxVer "v2.0.0" "v1.0.0") = .eq ∧
    (cmpVer "v1.0.0" "v2.0.0" ≠ .eq →
      MaxVer "v1.0.0" "v2.0.0" = MaxVer "v2.0.0" "v1.0.0") :=
  c4_max_commutes "v1.0.0" "v2.0.0" (by decide) (by decide)

/-! ### C7 -/

/-- C7, counterexample: the manifest contains the replace directive
`lib => ../z` with empty oldVersion, yet `Replacement` on
`lib v1.2.3` (same path, different version) does not return the
directive's target — the zero module version is returned instead,
because matching is by exact `(oldPath, oldVersion)` equality. -/
theorem c7_replace_counterexample :
    (⟨⟨"lib", ""⟩, ⟨"../z", ""⟩⟩ : ModVer × ModVer) ∈ envRepl.replace ∧
    (⟨"lib", "v1.2.3"⟩ : ModVer).path = "lib" ∧
    Replacement envRepl ⟨"lib", "v1.2.3"⟩ = ⟨"", ""⟩ ∧
    Replacement envRepl ⟨"lib", "v1.2.3"⟩ ≠ ⟨"../z", ""⟩ := by
  refine ⟨by decide, by decide, by decide, by decide⟩

theorem foldl_replace_find (mod : ModVer) (rs : List (ModVer × ModVer))
    (acc : Option ModVer) :
    rs.foldl (fun acc r => if r.1 = mod then some r.2 else acc) acc =
      match rs.reverse.find? (fun r => r.1 = mod) with
      | some r => some r.2
      | none => acc := by
  induction rs generalizing acc with
  | nil => rfl
  | cons r t ih =>
    show t.foldl _ (if r.1 = mod then some r.2 else acc) = _
    rw [ih]
    rw [List.reverse_cons, List.find?_append]
    cases hf : t.reverse.find? (fun r => r.1 = mod) with
    | some x => rfl
    | none =>
      show (if r.1 = mod then some r.2 else acc) =
        match Option.none.or ([r].find? fun r => r.1 = mod) with
        | some r => some r.2
        | none => acc
      by_cases hr : r.1 = mod
      · simp [List.find?, hr]
      · simp [List.find?, hr]

/-- C7, amended: a replace directive applies only to the module version
that equals its `(oldPath, oldVersion)` pair exactly — `Replacement mod`
is the target of the last directive whose old pair equals `mod`, and the
zero module version otherwise.  A directive with an empty oldVersion
therefore matches only a lookup whose version is itself empty, not every
version of oldPath.  Consequently any non-zero result comes from a
directive for exactly `mod`. -/
theorem c7_replace_exact (env : Env) (mod : ModVer) :
    Replacement env mod =
      (match env.replace.reverse.find? (fun r => r.1 = mod) with
       | some r => r.2
       | none => ⟨"", ""⟩) ∧
    ((Replacement env mod).path ≠ "" →
      (mod, Replacement env mod) ∈ env.replace) := by
  have hfold := foldl_replace_find mod env.replace none
  constructor
  · show (env.replace.foldl (fun acc r => if r.1 = mod then some r.2 else acc)
      none).getD ⟨"", ""⟩ = _
    rw [hfold]
    cases hf : env.replace.reverse.find? (fun r => r.1 = mod) <;> rfl
  · intro hne
    have h1 : Replacement env mod =
        (match env.replace.reverse.find? (fun r => r.1 = mod) with
         | some r => r.2
         | none => ⟨"", ""⟩) := by
      show (env.replace.foldl (fun acc r => if r.1 = mod then some r.2 else acc)
        none).getD ⟨"", ""⟩ = _
      rw [hfold]
      cases hf : env.replace.reverse.find? (fun r => r.1 = mod) <;> rfl
    cases hf : env.replace.reverse.find? (fun r => r.1 = mod) with
    | none =>
      rw [h1, hf] at hne
      exact absurd rfl hne
    | some r =>
      rw [h1, hf]
      have hmem : r ∈ env.replace.reverse := List.mem_of_find?_eq_some hf
      have hp := List.find?_some hf
      have : r.1 = mod := by simpa using hp
      have : (mod, r.2) = r := by
        cases r with
        | mk a b => simp_all
      rw [this]
      exact List.mem_reverse.mp hmem

/-- C7, witness for the amended theorem: at the concrete manifest the
exact-version lookup `lib@""` does hit the directive and the result is a
real member of the replace table. -/
theorem c7_replace_exact_witness :
    (⟨"lib", ""⟩, Replacement envRepl ⟨"lib", ""⟩) ∈ envRepl.replace :=
  (c7_replace_exact envRepl ⟨"lib", ""⟩).2 (by decide)

/-! ### C1 -/

theorem excludeLoop_ok_not_excluded (env : Env) (reqMod : ModVer) :
    ∀ (fuel : Nat) (mv mv' : ModVer),
      excludeLoop env reqMod fuel mv = .ok mv' → env.excluded mv' = false := by
  intro fuel
  induction fuel with
  | zero => intro mv mv' h; exact absurd h (by simp [excludeLoop])
  | succ n ih =>
    intro mv mv' h
    rw [excludeLoop] at h
    by_cases he : env.excluded mv
    · rw [if_pos he] at h
      cases hn : nextVer env mv with
      | error e => rw [hn] at h; exact absurd h (by simp)
      | ok mv1 =>
        simp only [hn] at h
        by_cases hv : mv1.version = "none"
        · rw [if_pos hv] at h; exact absurd h (by simp)
        · rw [if_neg hv] at h; exact ih mv1 mv' h
    · rw [if_neg he] at h
      cases h
      exact Bool.not_eq_true _ ▸ (by simpa using he)

theorem applyExclusions_ok_not_excluded (env : Env) (reqMod : ModVer) :
    ∀ (l out : List ModVer), applyExclusions env reqMod l = .ok out →
      ∀ mv ∈ out, env.excluded mv = false := by
  intro l
  induction l with
  | nil =>
    intro out h mv hm
    rw [applyExclusions] at h
    cases h
    exact absurd hm (List.not_mem_nil mv)
  | cons a rest ih =>
    intro out h mv hm
    rw [applyExclusions] at h
    cases hl : excludeLoop env reqMod (excludeFuel env a) a with
    | error e => rw [hl] at h; exact absurd h (by simp)
    | ok a1 =>
      simp only [hl] at h
      cases hr : applyExclusions env reqMod rest with
      | error e => rw [hr] at h; exact absurd h (by simp)
      | ok rest1 =>
        simp only [hr] at h
        cases h
        rcases List.mem_cons.mp hm with h1 | h1
        · exact h1 ▸ excludeLoop_ok_not_excluded env reqMod _ a a1 hl
        · exact ih _ hr mv h1

/-- C1: a direct requirement that is excluded is replaced by the next
greater tagged version, repeating while the substitute is itself
excluded, and the build fails with "no newer version available" when no
greater version exists.  Concretely, requiring `lib v1.6.1` while
excluding it with `[v1.6.1, v1.6.2]` published pins `lib v1.6.2`; when
`v1.6.1` is the latest published version the same manifest produces the
documented error.  In general a successful `Required` never returns an
excluded module version, and a non-excluded requirement passes through
the substitution loop unchanged. -/
theorem c1_exclusion_substitution :
    (Required envC1 ⟨"x", ""⟩ = .ok [⟨"lib", "v1.6.2"⟩]) ∧
    (Required envC1b ⟨"x", ""⟩ =
      .err "x() depends on excluded lib(v1.6.1) with no newer version available") ∧
    (substrIn "no newer version available"
      "x() depends on excluded lib(v1.6.1) with no newer version available" = true) ∧
    (∀ env mod out, Required env mod = .ok out →
      ∀ mv ∈ out, env.excluded mv = false) ∧
    (∀ env reqMod fuel mv, env.excluded mv = false →
      excludeLoop env reqMod (fuel + 1) mv = .ok mv) := by
  refine ⟨by decide, by decide, by decide, ?_, ?_⟩
  · intro env mod out h mv hm
    rw [Required] at h
    cases hreq : required env mod with
    | err e => rw [hreq] at h; exact absurd h (by simp)
    | goPanic e => rw [hreq] at h; exact absurd h (by simp)
    | ok list =>
      simp only [hreq] at h
      cases ha : applyExclusions env mod list with
      | error e => rw [ha] at h; exact absurd h (by simp)
      | ok out1 =>
        simp only [ha] at h
        cases h
        exact applyExclusions_ok_not_excluded env mod list _ ha mv hm
  · intro env reqMod fuel mv h
    rw [excludeLoop, if_neg]
    rw [h]
    exact Bool.false_ne_true

/-- C1, witness: the general parts applied at the concrete manifest —
the surviving requirement `lib v1.6.2` is not excluded. -/
theorem c1_exclusion_substitution_witness :
    Env.excluded envC1 ⟨"lib", "v1.6.2"⟩ = false :=
  c1_exclusion_substitution.2.2.2.1 envC1 ⟨"x", ""⟩ [⟨"lib", "v1.6.2"⟩]
    (by decide) ⟨"lib", "v1.6.2"⟩ (by decide)

/-! ### C5 -/

/-- C5: when `Upgrade` succeeds it returns either the module itself or
the `latest`-query answer; it returns the module unchanged whenever the
latest version compares semver-below it, and whenever the module is a
pseudo-version whose encoded timestamp is after the latest version's
commit time. -/
theorem c5_upgrade_no_downgrade (env : QueryEnv) (allowed : ModVer → Bool)
    (m r : ModVer) (info : RevInfo)
    (hq : Query env m.path "latest" allowed = .ok info)
    (h : Upgrade env allowed m = .ok r) :
    (r = m ∨ r = ⟨m.path, info.version⟩) ∧
    (cmpVer info.version m.version = .lt → r = m) ∧
    (∀ t, pseudoVersionTime m.version = some t → info.time < t → r = m) := by
  simp only [Upgrade, hq] at h
  cases hc : cmpVer info.version m.version with
  | lt =>
    rw [hc, if_pos (show (Ordering.lt == Ordering.lt) = true from rfl)] at h
    cases h
    exact ⟨Or.inl rfl, fun _ => rfl, fun _ _ _ => rfl⟩
  | eq =>
    rw [hc, if_neg (show ¬((Ordering.eq == Ordering.lt) = true) by decide)] at h
    refine ⟨?_, fun hlt => absurd hlt (by decide), ?_⟩
    · cases hp : pseudoVersionTime m.version with
      | none => simp only [hp] at h; cases h; exact Or.inr rfl
      | some t0 =>
        simp only [hp] at h
        by_cases ht : info.time < t0
        · rw [if_pos ht] at h; cases h; exact Or.inl rfl
        · rw [if_neg ht] at h; cases h; exact Or.inr rfl
    · intro t hp hlt
      simp only [hp] at h
      rw [if_pos hlt] at h
      cases h
      rfl
  | gt =>
    rw [hc, if_neg (show ¬((Ordering.gt == Ordering.lt) = true) by decide)] at h
    refine ⟨?_, fun hlt => absurd hlt (by decide), ?_⟩
    · cases hp : pseudoVersionTime m.version with
      | none => simp only [hp] at h; cases h; exact Or.inr rfl
      | some t0 =>
        simp only [hp] at h
        by_cases ht : info.time < t0
        · rw [if_pos ht] at h; cases h; exact Or.inl rfl
        · rw [if_neg ht] at h; cases h; exact Or.inr rfl
    · intro t hp hlt
      simp only [hp] at h
      rw [if_pos hlt] at h
      cases h
      rfl

/-! ### C3 -/

theorem findFromEnd_none (p : String → Bool) :
    ∀ l, findFromEnd p l = none → ∀ u ∈ l, p u = false := by
  intro l
  induction l with
  | nil => intro _ u hu; exact absurd hu (List.not_mem_nil u)
  | cons a as ih =>
    intro h u hu
    rw [findFromEnd] at h
    cases hfa : findFromEnd p as with
    | some r => rw [hfa] at h; exact absurd h (by simp)
    | none =>
      rw [hfa] at h
      by_cases hp : p a
      · rw [if_pos hp] at h; exact absurd h (by simp)
      · rcases List.mem_cons.mp hu with h1 | h1
        · exact h1 ▸ Bool.eq_false_iff.mpr hp
        · exact ih hfa u h1

theorem findFromEnd_some_spec (p : String → Bool) :
    ∀ (l : List String) (w : String),
      l.Pairwise (fun a b => cmpVer a b = .lt) →
      findFromEnd p l = some w →
      w ∈ l ∧ p w = true ∧ ∀ u ∈ l, p u = true → cmpVer u w ≠ .gt := by
  intro l
  induction l with
  | nil => intro w _ h; exact absurd h (by simp [findFromEnd])
  | cons a as ih =>
    intro w hs h
    have ha := (List.pairwise_cons.mp hs).1
    have hs' := (List.pairwise_cons.mp hs).2
    rw [findFromEnd] at h
    cases hfa : findFromEnd p as with
    | some r =>
      rw [hfa] at h
      cases h
      obtain ⟨hmem, hp, hmax⟩ := ih w hs' hfa
      refine ⟨List.mem_cons_of_mem a hmem, hp, ?_⟩
      intro u hu hpu
      rcases List.mem_cons.mp hu with h1 | h1
      · subst h1
        rw [ha w hmem]
        exact fun hgt => by cases hgt
      · exact hmax u h1 hpu
    | none =>
      rw [hfa] at h
      by_cases hp : p a
      · rw [if_pos hp] at h
        cases h
        refine ⟨List.mem_cons_self a as, hp, ?_⟩
        intro u hu hpu
        rcases List.mem_cons.mp hu with h1 | h1
        · subst h1
          rw [cmpVer_self]
          exact fun hgt => by cases hgt
        · exact absurd hpu (by rw [findFromEnd_none p as hfa u h1]; exact Bool.false_ne_true)
      · rw [if_neg hp] at h
        exact absurd h (by simp)

theorem query_latest_nil (env : QueryEnv) (path : String) (repo : Repo)
    (allowed : ModVer → Bool)
    (hl : env.lookup path = .ok repo) (hv : repo.versions = .ok []) :
    Query env path "latest" allowed = repo.latest := by
  rw [Query]
  simp only [hl, hv]
  rfl

theorem query_latest_cons (env : QueryEnv) (path : String) (repo : Repo)
    (a : String) (as : List String) (allowed : ModVer → Bool)
    (hl : env.lookup path = .ok repo) (hv : repo.versions = .ok (a :: as)) :
    Query env path "latest" allowed =
      (match (match findFromEnd (fun v => Prerelease v == "" && allowed ⟨path, v⟩) (a :: as) with
              | some v => some v
              | none => findFromEnd (fun v => Prerelease v != "" && allowed ⟨path, v⟩) (a :: as)) with
       | some v => repo.stat v
       | none => .error ("no matching versions for " ++ "" ++ "latest")) := by
  rw [Query]
  simp only [hl, hv]
  rfl

/-- C3: with the repository's sorted tagged-version list, `Query latest`
returns `repo.Latest()` when the list is empty; otherwise it stats the
largest allowed non-prerelease version, falling back to the largest
allowed prerelease when no allowed non-prerelease exists (the
descending-scan hit is maximal among the respective candidates). -/
theorem c3_query_latest (env : QueryEnv) (path : String) (repo : Repo)
    (vlist : List String) (allowed : ModVer → Bool)
    (hl : env.lookup path = .ok repo) (hv : repo.versions = .ok vlist)
    (hs : vlist.Pairwise (fun a b => cmpVer a b = .lt)) :
    (vlist = [] → Query env path "latest" allowed = repo.latest) ∧
    (∀ w, findFromEnd (fun v => Prerelease v == "" && allowed ⟨path, v⟩) vlist = some w →
      Query env path "latest" allowed = repo.stat w ∧ w ∈ vlist ∧
      Prerelease w = "" ∧ allowed ⟨path, w⟩ = true ∧
      ∀ u ∈ vlist, Prerelease u = "" → allowed ⟨path, u⟩ = true → cmpVer u w ≠ .gt) ∧
    (findFromEnd (fun v => Prerelease v == "" && allowed ⟨path, v⟩) vlist = none →
      ∀ w, findFromEnd (fun v => Prerelease v != "" && allowed ⟨path, v⟩) vlist = some w →
      Query env path "latest" allowed = repo.stat w ∧ w ∈ vlist ∧
      Prerelease w ≠ "" ∧ allowed ⟨path, w⟩ = true ∧
      ∀ u ∈ vlist, allowed ⟨path, u⟩ = true → cmpVer u w ≠ .gt) := by
  refine ⟨?_, ?_, ?_⟩
  · intro he
    subst he
    exact query_latest_nil env path repo allowed hl hv
  · intro w hw
    cases vlist with
    | nil => exact absurd hw (by simp [findFromEnd])
    | cons a as =>
    rw [query_latest_cons env path repo a as allowed hl hv]
    simp only [hw]
    obtain ⟨hmem, hp, hmax⟩ := findFromEnd_some_spec _ (a :: as) w hs hw
    rw [Bool.and_eq_true] at hp
    have hpre : Prerelease w = "" := eq_of_beq hp.1
    refine ⟨trivial, hmem, hpre, hp.2, ?_⟩
    intro u hu hupre hua
    exact hmax u hu (by rw [Bool.and_eq_true, hupre]; exact ⟨rfl, hua⟩)
  · intro h1 w hw
    cases vlist with
    | nil => exact absurd hw (by simp [findFromEnd])
    | cons a as =>
    rw [query_latest_cons env path repo a as allowed hl hv]
    simp only [h1, hw]
    obtain ⟨hmem, hp, hmax⟩ := findFromEnd_some_spec _ (a :: as) w hs hw
    rw [Bool.and_eq_true] at hp
    have hpre : Prerelease w ≠ "" := by
      intro he
      have := hp.1
      rw [he] at this
      exact absurd this (by decide)
    refine ⟨trivial, hmem, hpre, hp.2, ?_⟩
    intro u hu hua
    by_cases hupre : Prerelease u = ""
    · exfalso
      have hzz := findFromEnd_none _ (a :: as) h1 u hu
      rw [hupre, hua] at hzz
      exact absurd hzz (by decide)
    · refine hmax u hu ?_
      rw [Bool.and_eq_true]
      exact ⟨by simpa using hupre, hua⟩

/-- C3, witness: over the concrete repository the largest allowed
non-prerelease is `v1.5.2` and `Query latest` stats it. -/
theorem c3_query_latest_witness :
    Query qenv "swtch.com/testmod" "latest" allowAll = repoQ.stat "v1.5.2" :=
  ((c3_query_latest qenv "swtch.com/testmod" repoQ
      ["v1.5.0", "v1.5.1", "v1.5.2", "v1.5.3-pre1"] allowAll rfl rfl
      (by decide)).2.1 "v1.5.2" (by decide)).1

/-! ### C6 -/

theorem strData_append (a b : String) : (a ++ b).data = a.data ++ b.data := by
  cases a
  cases b
  rfl

theorem substrIn_self (n : String) : substrIn n n = true := by
  unfold substrIn
  have := substrInL_append_self n.data []
  rwa [List.append_nil] at this

theorem hasPrefixL_extend (n : List Char) :
    ∀ l b, hasPrefixL l n = true → hasPrefixL (l ++ b) n = true := by
  induction n with
  | nil => intro l b _; cases l ++ b <;> rfl
  | cons c cs ih =>
    intro l b h
    cases l with
    | nil => exact absurd h (by simp [hasPrefixL])
    | cons a as =>
      rw [List.cons_append]
      rw [show hasPrefixL (a :: as) (c :: cs) = (a == c && hasPrefixL as cs) from rfl] at h
      rw [Bool.and_eq_true] at h
      show (a == c && hasPrefixL (as ++ b) cs) = true
      rw [Bool.and_eq_true]
      exact ⟨h.1, ih as b h.2⟩

theorem substrInL_append_left (n : List Char) :
    ∀ a b, substrInL n a = true → substrInL n (a ++ b) = true := by
  intro a
  induction a with
  | nil =>
    intro b h
    rw [show substrInL n [] = n.isEmpty from rfl] at h
    have : n = [] := by
      cases n with
      | nil => rfl
      | cons x xs => exact absurd h (by simp [List.isEmpty])
    subst this
    rw [List.nil_append]
    cases b <;> simp [substrInL, hasPrefixL, List.isEmpty]
  | cons c cs ih =>
    intro b h
    rw [show substrInL n (c :: cs) = (hasPrefixL (c :: cs) n || substrInL n cs) from rfl,
      Bool.or_eq_true] at h
    rw [List.cons_append]
    rw [show substrInL n (c :: (cs ++ b)) =
      (hasPrefixL (c :: (cs ++ b)) n || substrInL n (cs ++ b)) from rfl, Bool.or_eq_true]
    rcases h with h | h
    · left
      have := hasPrefixL_extend n (c :: cs) b h
      rwa [List.cons_append] at this
    · right
      exact ih b h

theorem substrInL_append_right (n : List Char) :
    ∀ a b, substrInL n b = true → substrInL n (a ++ b) = true := by
  intro a
  induction a with
  | nil => intro b h; rwa [List.nil_append]
  | cons c cs ih =>
    intro b h
    rw [List.cons_append]
    exact substrInL_cons_of n c (cs ++ b) (ih b h)

theorem substrIn_append_left (n a b : String) (h : substrIn n a = true) :
    substrIn n (a ++ b) = true := by
  unfold substrIn at h ⊢
  rw [strData_append]
  exact substrInL_append_left n.data a.data b.data h

theorem substrIn_append_right (n a b : String) (h : substrIn n b = true) :
    substrIn n (a ++ b) = true := by
  unfold substrIn at h ⊢
  rw [strData_append]
  exact substrInL_append_right n.data a.data b.data h

theorem prefix_slash_iff (pd md : List Char) :
    (md ++ ['/']) <+: pd ↔
      md.length < pd.length ∧ pd.getD md.length ' ' = '/' ∧ pd.take md.length = md := by
  constructor
  · intro h
    have hlen : md.length + 1 ≤ pd.length := by
      have := h.length_le
      simpa using this
    have htake : pd.take (md.length + 1) = md ++ ['/'] := by
      have := List.prefix_iff_eq_take.mp h
      simp only [List.length_append, List.length_singleton] at this
      exact this.symm
    have htm : pd.take md.length = md := by
      have h2 := congrArg (List.take md.length) htake
      simp only [List.take_take] at h2
      rw [show min md.length (md.length + 1) = md.length by omega] at h2
      rw [List.take_append_of_le_length (Nat.le_refl md.length), List.take_length] at h2
      exact h2
    have hsucc := List.take_succ (l := pd) (n := md.length)
    rw [htake, htm] at hsucc
    have hopt : pd[md.length]?.toList = ['/'] := (List.append_cancel_left hsucc).symm
    have hget : pd[md.length]? = some '/' := by
      cases hx : pd[md.length]? with
      | none => rw [hx] at hopt; exact absurd hopt (by simp)
      | some c =>
        rw [hx] at hopt
        simp only [Option.toList_some, List.cons.injEq] at hopt
        rw [hopt.1]
    refine ⟨hlen, ?_, htm⟩
    rw [List.getD_eq_getElem?_getD, hget]
    rfl
  · rintro ⟨hlen, hch, htk⟩
    rw [List.prefix_iff_eq_take]
    have hget : pd[md.length]? = some '/' := by
      cases hx : pd[md.length]? with
      | none =>
        have := List.getElem?_eq_none_iff.mp hx
        omega
      | some c =>
        rw [List.getD_eq_getElem?_getD, hx] at hch
        simp only [Option.getD_some] at hch
        rw [hch]
    have hts : pd.take (md.length + 1) = md ++ ['/'] := by
      rw [List.take_succ, htk, hget]
      rfl
    simp only [List.length_append, List.length_singleton]
    exact hts.symm

/-- The scan of `importDir` reaching a second build-list module that
contains the import path, with the accumulator already holding the first
match. -/
theorem importDirScan_second (env : LoadEnv) (stackText path : String)
    (dir1 : String) (m1 : ModVer) :
    ∀ (l2 : List ModVer) (m2 : ModVer) (l3 : List ModVer) (d2 : String),
      (∀ x ∈ l2, importPathInModule path x.path = false) →
      importPathInModule path m2.path = true →
      fetchMod env m2 = .ok d2 →
      importDirScan env stackText path (l2 ++ m2 :: l3) (some (dir1, m1)) =
        .errored ("vgo: " ++ stackText ++ ": found in both " ++
          m1.path ++ " " ++ m1.version ++ " and " ++ m2.path ++ " " ++ m2.version) := by
  intro l2
  induction l2 with
  | nil =>
    intro m2 l3 d2 _ hm2 hf2
    rw [List.nil_append]
    simp only [importDirScan]
    rw [if_pos hm2]
    simp only [hf2]
  | cons x xs ih =>
    intro m2 l3 d2 hskip hm2 hf2
    rw [List.cons_append]
    simp only [importDirScan]
    rw [if_neg (by rw [hskip x (List.mem_cons_self x xs)]; exact Bool.false_ne_true)]
    exact ih m2 l3 d2 (fun y hy => hskip y (List.mem_cons_of_mem x hy)) hm2 hf2

/-- The scan of `importDir` from an empty accumulator up to the first
matching module and on to the second. -/
theorem importDirScan_two (env : LoadEnv) (stackText path : String) :
    ∀ (l1 : List ModVer) (m1 : ModVer) (l2 : List ModVer) (m2 : ModVer)
      (l3 : List ModVer) (d1 d2 : String),
      (∀ x ∈ l1, importPathInModule path x.path = false) →
      importPathInModule path m1.path = true →
      (∀ x ∈ l2, importPathInModule path x.path = false) →
      importPathInModule path m2.path = true →
      fetchMod env m1 = .ok d1 →
      fetchMod env m2 = .ok d2 →
      importDirScan env stackText path (l1 ++ m1 :: l2 ++ m2 :: l3) none =
        .errored ("vgo: " ++ stackText ++ ": found in both " ++
          m1.path ++ " " ++ m1.version ++ " and " ++ m2.path ++ " " ++ m2.version) := by
  intro l1
  induction l1 with
  | nil =>
    intro m1 l2 m2 l3 d1 d2 _ hm1 hskip2 hm2 hf1 hf2
    rw [List.nil_append]
    simp only [importDirScan]
    rw [if_pos hm1]
    simp only [hf1]
    exact importDirScan_second env stackText path _ m1 l2 m2 l3 d2 hskip2 hm2 hf2
  | cons x xs ih =>
    intro m1 l2 m2 l3 d1 d2 hskip1 hm1 hskip2 hm2 hf1 hf2
    rw [List.cons_append]
    simp only [importDirScan]
    rw [if_neg (by rw [hskip1 x (List.mem_cons_self x xs)]; exact Bool.false_ne_true)]
    exact ih m1 l2 m2 l3 d1 d2 (fun y hy => hskip1 y (List.mem_cons_of_mem x hy))
      hm1 hskip2 hm2 hf1 hf2

/-- C6: an import path `p` is served by the module of path `m` exactly
when `m = p` or `p` begins with `m ++ "/"`; and when two build-list
modules both contain `p` (and nothing shadows the scan: the target does
not serve `p`, `p` is not a standard-library path that exists under
GOROOT, vendor mode is off, and both fetches succeed), `importDir`
reports the "found in both" error naming both modules instead of picking
one. -/
theorem c6_import_resolution :
    (∀ p m : String, importPathInModule p m = true ↔
      (m = p ∨ (m ++ "/").data <+: p.data)) ∧
    (∀ (env : LoadEnv) (stackText path : String) (l1 : List ModVer) (m1 : ModVer)
        (l2 : List ModVer) (m2 : ModVer) (l3 : List ModVer) (d1 d2 : String),
      env.buildList = l1 ++ m1 :: l2 ++ m2 :: l3 →
      (∀ x ∈ l1, importPathInModule path x.path = false) →
      importPathInModule path m1.path = true →
      (∀ x ∈ l2, importPathInModule path x.path = false) →
      importPathInModule path m2.path = true →
      fetchMod env m1 = .ok d1 →
      fetchMod env m2 = .ok d2 →
      importPathInModule path env.target.path = false →
      (isStandardImportPath path &&
        (strStartsWith path "golang_org/" || env.gorootSrcHas path)) = false →
      env.getmode ≠ "vendor" →
      importDir env stackText path =
        .errored ("vgo: " ++ stackText ++ ": found in both " ++
          m1.path ++ " " ++ m1.version ++ " and " ++ m2.path ++ " " ++ m2.version) ∧
      substrIn "found in both" ("vgo: " ++ stackText ++ ": found in both " ++
          m1.path ++ " " ++ m1.version ++ " and " ++ m2.path ++ " " ++ m2.version) = true ∧
      substrIn m1.path ("vgo: " ++ stackText ++ ": found in both " ++
          m1.path ++ " " ++ m1.version ++ " and " ++ m2.path ++ " " ++ m2.version) = true ∧
      substrIn m2.path ("vgo: " ++ stackText ++ ": found in both " ++
          m1.path ++ " " ++ m1.version ++ " and " ++ m2.path ++ " " ++ m2.version) = true) := by
  constructor
  · intro p m
    unfold importPathInModule
    rw [Bool.or_eq_true, Bool.and_eq_true, Bool.and_eq_true]
    constructor
    · rintro (h | ⟨⟨hlen, hch⟩, htk⟩)
      · exact Or.inl (eq_of_beq h)
      · right
        rw [strData_append]
        rw [prefix_slash_iff]
        refine ⟨by simpa using of_decide_eq_true hlen, eq_of_beq hch, eq_of_beq htk⟩
    · rintro (h | hpre)
      · exact Or.inl (by rw [h]; exact beq_self_eq_true p)
      · right
        rw [strData_append] at hpre
        rw [prefix_slash_iff] at hpre
        exact ⟨⟨decide_eq_true (by simpa using hpre.1), beq_iff_eq.mpr hpre.2.1⟩,
          beq_iff_eq.mpr hpre.2.2⟩
  · intro env stackText path l1 m1 l2 m2 l3 d1 d2 hbl hskip1 hm1 hskip2 hm2 hf1 hf2
      htgt hstd hvend
    refine ⟨?_, ?_, ?_, ?_⟩
    · rw [importDir, if_neg (by rw [htgt]; exact Bool.false_ne_true),
        if_neg (by rw [hstd]; exact Bool.false_ne_true),
        if_neg (by
          intro hc
          exact hvend (eq_of_beq hc)), hbl]
      exact importDirScan_two env stackText path l1 m1 l2 m2 l3 d1 d2
        hskip1 hm1 hskip2 hm2 hf1 hf2
    · apply substrIn_append_left
      apply substrIn_append_left
      apply substrIn_append_left
      apply substrIn_append_left
      apply substrIn_append_left
      apply substrIn_append_left
      apply substrIn_append_left
      apply substrIn_append_right
      decide
    · apply substrIn_append_left
      apply substrIn_append_left
      apply substrIn_append_left
      apply substrIn_append_left
      apply substrIn_append_left
      apply substrIn_append_left
      apply substrIn_append_right
      exact substrIn_self m1.path
    · apply substrIn_append_left
      apply substrIn_append_left
      apply substrIn_append_right
      exact substrIn_self m2.path

/-- A loader state whose build list contains both `x` and `x/y`, each
providing the import path `x/y/z`. -/
def loadEnvC6 : LoadEnv :=
  { target := ⟨"m", ""⟩
    modRoot := "/home/user/m"
    goroot := "/goroot"
    gorootSrcHas := fun _ => false
    getmode := ""
    buildList := [⟨"x", "v1.0.0"⟩, ⟨"x/y", "v1.0.0"⟩]
    replace := []
    download := fun mod => .ok ("/cache/" ++ mod.path ++ "@" ++ mod.version) }

/-- C6, witness: resolving `x/y/z` against that build list reports
"found in both x v1.0.0 and x/y v1.0.0". -/
theorem c6_import_resolution_witness :
    importDir loadEnvC6 "import stack" "x/y/z" =
      .errored ("vgo: " ++ "import stack" ++ ": found in both " ++
        "x" ++ " " ++ "v1.0.0" ++ " and " ++ "x/y" ++ " " ++ "v1.0.0") :=
  (c6_import_resolution.2 loadEnvC6 "import stack" "x/y/z"
    [] ⟨"x", "v1.0.0"⟩ [] ⟨"x/y", "v1.0.0"⟩ []
    "/cache/x@v1.0.0" "/cache/x/y@v1.0.0"
    rfl (by intro x hx; exact absurd hx (List.not_mem_nil x)) (by decide)
    (by intro x hx; exact absurd hx (List.not_mem_nil x)) (by decide)
    (by decide) (by decide) (by decide) (by decide) (by decide)).1

/-- A repository whose `Stat` reports a fixed 2018 commit instant, for
exercising the pseudo-version branch of `Upgrade`. -/
def repoU : Repo :=
  { repoQ with stat := fun v => .ok ⟨v, "", "", 20180101000000⟩ }

def qenvU : QueryEnv :=
  { lookup := fun p => if p = "swtch.com/testmod" then .ok repoU else .error "unknown module"
    statCached := fun _ _ => none }

/-- C5, witness: a module sitting on a 2019 pseudo-version is kept by
`Upgrade` even though `latest` resolves to tagged `v1.5.2` with a 2018
commit time. -/
theorem c5_upgrade_no_downgrade_witness :
    (⟨"swtch.com/testmod", "v1.0.0-20190101000000-abcdef123456"⟩ : ModVer) =
      ⟨"swtch.com/testmod", "v1.0.0-20190101000000-abcdef123456"⟩ :=
  (c5_upgrade_no_downgrade qenvU allowAll
      ⟨"swtch.com/testmod", "v1.0.0-20190101000000-abcdef123456"⟩
      ⟨"swtch.com/testmod", "v1.0.0-20190101000000-abcdef123456"⟩
      ⟨"v1.5.2", "", "", 20180101000000⟩ (by decide) (by decide)).2.2
    20190101000000 (by decide) (by decide)

/-! ### C8 -/

/-- A ledger state before first use in a module with no `go.sum` file on
disk. -/
def sumDisabled : SumState :=
  { goSumFileName := "/m/go.sum", goSumFileData := none, modverifyData := none
    goSum := none, useGoSum := false }

/-- C8, counterexample: with no `go.sum` on disk the ledger initializes
disabled; `checkOneSum` then returns success but records nothing — the
in-memory map stays empty — and `WriteGoSum` writes nothing, so no seed
`go.sum` is offered on first write, contradicting the claimed
collection. -/
theorem c8_disabled_counterexample :
    checkOneSum sumDisabled ⟨"lib", "v1.0.0"⟩ "h1:deadbeef" =
      .ok { sumDisabled with goSum := some [] } ∧
    writeGoSum { sumDisabled with goSum := some [] } = none := by
  refine ⟨by decide, by decide⟩

/-- C8, amended: when the ledger is disabled (no existing `go.sum` and no
explicit enable) every verification operation — `checkSum`, `checkGoMod`,
`checkOneSum` — skips verification and reports success, but nothing is
collected either: the state is returned unchanged (beyond the one-time
empty-map initialization) and `WriteGoSum` writes nothing, so no seed
`go.sum` is produced. -/
theorem c8_disabled_noop (env : SumEnv) (s : SumState) (mod : ModVer)
    (h : String) (path version data : String)
    (hd : (initGoSum s).useGoSum = false) :
    checkOneSum s mod h = .ok (initGoSum s) ∧
    checkSum env s mod = .ok (initGoSum s) ∧
    checkGoMod env s path version data = .ok (initGoSum s) ∧
    writeGoSum (initGoSum s) = none := by
  refine ⟨?_, ?_, ?_, ?_⟩
  · rw [checkOneSum]
    simp only [hd]
    rfl
  · rw [checkSum]
    simp only [hd]
    rfl
  · rw [checkGoMod]
    simp only [hd]
    rfl
  · rw [writeGoSum]
    simp only [hd]
    rfl

/-- C8, witness for the amended theorem at the concrete disabled state. -/
theorem c8_disabled_noop_witness :
    checkOneSum sumDisabled ⟨"lib", "v1.0.0"⟩ "h1:deadbeef" =
      .ok (initGoSum sumDisabled) ∧
    checkSum ⟨fun _ => none, fun _ => "h1:x"⟩ sumDisabled ⟨"lib", "v1.0.0"⟩ =
      .ok (initGoSum sumDisabled) ∧
    checkGoMod ⟨fun _ => none, fun _ => "h1:x"⟩ sumDisabled "lib" "v1.0.0" "module lib" =
      .ok (initGoSum sumDisabled) ∧
    writeGoSum (initGoSum sumDisabled) = none :=
  c8_disabled_noop ⟨fun _ => none, fun _ => "h1:x"⟩ sumDisabled ⟨"lib", "v1.0.0"⟩
    "h1:deadbeef" "lib" "v1.0.0" "module lib" (by decide)

/-! ### C9 -/

/-- A module world for the vendor materializer: module `x` (required by
the target `m`) has its `go.mod` and a `LICENSE` file at its root and a
single package `x/sub`. -/
def vendorWorld : FsDir :=
  .mk [] [("x", .mk ["go.mod", "LICENSE"] [("sub", .mk ["sub.go"] [])])]

def vendorEnvC9 : VendorEnv :=
  { world := vendorWorld
    pkgs := ["x/sub"]
    importmap := fun p => p
    pkgdir := fun p => if p = "x/sub" then some ["x", "sub"] else none
    pkgmod := fun p => if p = "x/sub" then ⟨"x", "v1.0.0"⟩ else ⟨"", ""⟩
    target := ⟨"m", ""⟩
    buildList := [⟨"m", ""⟩, ⟨"x", "v1.0.0"⟩]
    replace := [] }

/-- C9, counterexample: vendoring a build list whose module `x` carries a
root `LICENSE` file copies only the package files (`vendor/x/sub/sub.go`)
— the ancillary `LICENSE` is not copied — and the listing is written to
`vendor/vgo.list`, not `vendor/modules.txt`. -/
theorem c9_vendor_counterexample :
    runVendor vendorEnvC9 = .ok ⟨[["vendor", "x", "sub", "sub.go"]],
      some ("vendor/vgo.list", ["# x v1.0.0", "x/sub"])⟩ ∧
    ["vendor", "x", "LICENSE"] ∉ [["vendor", "x", "sub", "sub.go"]] ∧
    ("vendor/vgo.list" : String) ≠ "vendor/modules.txt" := by
  refine ⟨by decide, by decide, by decide⟩

/-- C9, amended: the vendor materializer copies each vendored package's
directory (plus `testdata` directories on the chain up to the module
root) and, when at least one module is vendored, emits a listing file
named `vendor/vgo.list` containing a `# module version [=> replacement]`
header followed by the package paths per module.  Ancillary files such as
`LICENSE`, `PATENTS` or `NOTICE*` at a module root are not copied (they
arrive only when the root directory itself is a vendored package), and no
`vendor/modules.txt` is produced. -/
theorem c9_vendor_output :
    (∀ (env : VendorEnv) (out : VendorOut) (name : String) (lines : List String),
      runVendor env = .ok out → out.listing = some (name, lines) →
      name = "vendor/vgo.list") ∧
    runVendor vendorEnvC9 = .ok ⟨[["vendor", "x", "sub", "sub.go"]],
      some ("vendor/vgo.list", ["# x v1.0.0", "x/sub"])⟩ := by
  constructor
  · intro env out name lines hrun hlist
    rw [runVendor] at hrun
    cases hm : runVendorMods env env.buildList.tail [] with
    | error e => rw [hm] at hrun; exact absurd hrun (by simp)
    | ok trip =>
      obtain ⟨lines1, copies1, rest1⟩ := trip
      simp only [hm] at hrun
      by_cases he : lines1.isEmpty
      · rw [if_pos he] at hrun
        cases hrun
        exact absurd hlist (by simp)
      · rw [if_neg he] at hrun
        cases hrun
        have := hlist
        simp only [Option.some.injEq, Prod.mk.injEq] at this
        exact this.1.symm
  · decide

/-- C9, witness for the general listing-name fact, at the concrete
vendor environment. -/
theorem c9_vendor_output_witness :
    ("vendor/vgo.list" : String) = "vendor/vgo.list" :=
  c9_vendor_output.1 vendorEnvC9
    ⟨[["vendor", "x", "sub", "sub.go"]],
      some ("vendor/vgo.list", ["# x v1.0.0", "x/sub"])⟩
    "vendor/vgo.list" ["# x v1.0.0", "x/sub"] (by decide) rfl

/-! ### C10 -/

/-- C10: for a non-target module with no applicable replacement whose
version is neither `"none"` nor valid semver, the requirement extraction
panics (it does not return an error value); and whenever the version is
`"none"` or valid — in particular for every canonical semver version —
the panic branch is unreachable, whatever the remote manifests do. -/
theorem c10_invalid_version_panics (env : Env) (mod : ModVer)
    (hT : mod ≠ env.target) (hR : (Replacement env mod).path = "") :
    ((mod.version ≠ "none" ∧ IsValid mod.version = false) →
      required env mod = .goPanic ("invalid semantic version \"" ++ mod.version ++
        "\" for " ++ mod.path)) ∧
    ((mod.version = "none" ∨ IsValid mod.version = true) →
      (required env mod).isPanic = false) := by
  have hbase : required env mod =
      (if mod.version = "none" then .ok []
       else if !IsValid mod.version then
        .goPanic ("invalid semantic version \"" ++ mod.version ++ "\" for " ++ mod.path)
       else
        match env.goMod mod.path mod.version with
        | .error e => .err e
        | .ok f =>
          match f.module with
          | none => .err (mod.path ++ "@" ++ mod.version ++ " go.mod: missing module line")
          | some mpath =>
            if mpath ≠ mod.path ∧ mpath ≠ mod.path then
              .err ("downloaded \"" ++ mod.path ++ "\" and got module \"" ++ mpath ++ "\"")
            else .ok f.require) := by
    rw [required, if_neg hT,
      if_neg (show ¬((Replacement env mod).path ≠ "" ∧
        (Replacement env mod).version = "") from fun hc => hc.1 hR),
      if_neg (show ¬((Replacement env mod).path ≠ "") from fun hc => hc hR)]
  constructor
  · rintro ⟨hv, hiv⟩
    rw [hbase, if_neg hv]
    simp only [hiv]
    rfl
  · intro hok
    rw [hbase]
    by_cases hv : mod.version = "none"
    · rw [if_pos hv]
      rfl
    · rw [if_neg hv]
      have hval : IsValid mod.version = true := by
        rcases hok with h | h
        · exact absurd h hv
        · exact h
      rw [hval, if_neg (show ¬((!true : Bool) = true) by decide)]
      cases hg : env.goMod mod.path mod.version with
      | error e => simp only [hg]; rfl
      | ok f =>
        simp only [hg]
        cases hmod : f.module with
        | none => simp only [hmod]; rfl
        | some mpath =>
          simp only [hmod]
          by_cases hm : mpath ≠ mod.path ∧ mpath ≠ mod.path
          · rw [if_pos hm]; rfl
          · rw [if_neg hm]; rfl

/-- C10, witness: a request for `lib@v1.6` (valid but non-canonical) does
not panic, while the branch hypotheses are satisfiable — here shown with
the concrete manifest, where the panic-freedom half applies. -/
theorem c10_invalid_version_panics_witness :
    (required envC1 ⟨"lib", "v1.6.1"⟩).isPanic = false :=
  (c10_invalid_version_panics envC1 ⟨"lib", "v1.6.1"⟩ (by decide) (by decide)).2
    (Or.inr (by decide))

end Vgo
